import Mathlib

/-!
Shallow embedding of the MarktoMarket replay/valuation engine.

Sources embedded here:
* `src/src/components/Analytics.tsx` — the `periodData` replay (open-lot map,
  net position, closed P&L, average entry price, floating P&L per bar).
* `src/unnamed/part_002` — the duplicated `periodData` replay that recognizes
  `'close at stop'` instead of `'s/l'` as a close label.
* `src/vite.config.ts` (second embedded module) — `calculateMetrics`
  (win rate, max drawdown).

Numbers are modelled as exact rationals (`ℚ`); JavaScript `toFixed(n)`
display rounding is modelled exactly as round-half-up at `n` decimals
(`Number((x).toFixed(n))` picks the larger candidate on ties per ECMA-262).
JavaScript object keys (`openOrderMap`) are date strings, which are not array
indices, so `Object.keys` enumerates them in insertion order; the map is
modelled as an insertion-ordered association list with update-in-place
semantics. `new Date(s).getTime()` values are modelled by an `Int`-valued
`timeVal` field carried alongside the raw `time` string key. `Math.abs` is
exactly `|·|` on `ℚ`.
-/

/-- ASCII lowering of one character, the fragment of
`String.prototype.toLowerCase` exercised by the trade-type labels. -/
def lowerChar (c : Char) : Char :=
  if 65 ≤ c.toNat ∧ c.toNat ≤ 90 then Char.ofNat (c.toNat + 32) else c

/-- `s.toLowerCase()` on ASCII strings. -/
def lowerStr (s : String) : String := String.mk (s.data.map lowerChar)

/-- `Number((x).toFixed(2))`: round half-up to 2 decimal places. -/
def round2 (q : ℚ) : ℚ := (⌊q * 100 + 1/2⌋ : ℚ) / 100

/-- `Number((x).toFixed(3))`: round half-up to 3 decimal places. -/
def round3 (q : ℚ) : ℚ := (⌊q * 1000 + 1/2⌋ : ℚ) / 1000

/-- A ledger trade as consumed by the replay: `time` is the raw string used as
the `openOrderMap` key, `timeVal` is `new Date(time).getTime()`, `lots` is
`parseFloat(trade.open)`, `price` is `parseFloat(trade.price)` and
`profitLoss` is `parseFloat(trade.profitLoss)`. -/
structure Trade where
  time : String
  timeVal : Int
  type : String
  lots : ℚ
  price : ℚ
  profitLoss : ℚ
  deriving Repr, DecidableEq

/-- One market-data bar, the fields the replay reads. -/
structure Bar where
  timestamp : Int
  close : ℚ
  conversionFx : ℚ
  deriving Repr, DecidableEq

/-- An open-lot entry of `openOrderMap`: key (the trade's `time` string),
signed lots, entry price. -/
abbrev LotEntry := String × ℚ × ℚ

/-- The replay's mutable state: `openOrderMap` (insertion-ordered), `position`
and `closedProfit`. -/
structure PState where
  openOrders : List LotEntry
  position : ℚ
  closedProfit : ℚ
  deriving Repr, DecidableEq

/-- The initial replay state (`{}`, `0`, `0`). -/
def pState0 : PState := { openOrders := [], position := 0, closedProfit := 0 }

/-- `openOrderMap[k] = v`: JavaScript property assignment on a string-keyed
object — replaces the value in place when the key is present (keeping its
enumeration position), otherwise appends at the end. -/
def setKey (m : List LotEntry) (k : String) (l p : ℚ) : List LotEntry :=
  match m with
  | [] => [(k, l, p)]
  | (k0, l0, p0) :: rest =>
      if k0 = k then (k, l, p) :: rest else (k0, l0, p0) :: setKey rest k l p

/-- The summed signed lots of the open-lot map (the spec's
`sum(openLots.signedLots)`). -/
def sumLots (m : List LotEntry) : ℚ := (m.map fun e => e.2.1).sum

/-- `calculateAverageEntryPrice` from `Analytics.tsx` lines 53–63: fold the
map's values accumulating `sumLots` and `sumPL`, return `sumPL / sumLots`
when `Math.abs(sumLots) > 0.001`, else `0`. -/
def calculateAverageEntryPrice (orders : List LotEntry) : ℚ :=
  let s := orders.foldl (fun acc e => acc + e.2.1) 0
  let w := orders.foldl (fun acc e => acc + e.2.1 * e.2.2) 0
  if 1/1000 < |s| then w / s else 0

/-- One iteration of the trade `switch` in `Analytics.tsx` lines 81–101
(close labels `'t/p'` and `'s/l'`). The `if (orderKey)` guard is falsy both
when the map is empty and when the oldest key is the empty string. -/
def applyTrade (s : PState) (t : Trade) : PState :=
  let ty := lowerStr t.type
  if ty = "buy" then
    { openOrders := setKey s.openOrders t.time t.lots t.price,
      position := round2 (s.position + t.lots),
      closedProfit := s.closedProfit }
  else if ty = "sell" then
    { openOrders := setKey s.openOrders t.time (-t.lots) t.price,
      position := round2 (s.position - t.lots),
      closedProfit := s.closedProfit }
  else if ty = "t/p" ∨ ty = "s/l" then
    match s.openOrders with
    | [] => s
    | (k, l, _) :: rest =>
        if k = "" then s
        else
          { openOrders := rest,
            position := round2 (s.position - (if 0 < l then 1 else -1) * t.lots),
            closedProfit := s.closedProfit + t.profitLoss }
  else s

/-- Applying a list of trades in order to a state. -/
def applyTrades (l : List Trade) (s : PState) : PState := l.foldl applyTrade s

def tBuy1 : Trade :=
  { time := "a", timeVal := 0, type := "BUY", lots := 1, price := 11/10, profitLoss := 0 }

/-- The `floating` expression of `Analytics.tsx` lines 105–107:
`Math.abs(position) > 0.001 ? (close - aep) * position * 100000 / convFx : 0`.
`100000` is the lot-notional contract size. -/
def floatingOf (s : PState) (b : Bar) : ℚ :=
  if 1/1000 < |s.position| then
    (b.close - calculateAverageEntryPrice s.openOrders) * s.position * 100000 / b.conversionFx
  else 0

/-- The numeric fields of one emitted `PeriodData` record
(`Analytics.tsx` lines 109–119; the `time`/`timestamp` display fields are
not modelled). -/
structure Row where
  position : ℚ
  closed : ℚ
  aep : ℚ
  eoPeriodPrice : ℚ
  convertFX : ℚ
  openPnL : ℚ
  total : ℚ
  deriving Repr, DecidableEq

/-- Builds the record emitted for one bar from the post-consumption state
(`Analytics.tsx` lines 104–119). -/
def mkRow (s : PState) (b : Bar) : Row :=
  let floating := floatingOf s b
  { position := s.position,
    closed := round2 s.closedProfit,
    aep := round3 (calculateAverageEntryPrice s.openOrders),
    eoPeriodPrice := b.close,
    convertFX := b.conversionFx,
    openPnL := round2 floating,
    total := round2 (floating + s.closedProfit) }

/-- The `while` loop of `Analytics.tsx` line 75: shift and apply ledger-head
trades while the head's timestamp is `≤` the bar's timestamp; returns the
remaining ledger and the mutated state. -/
def consumeLE (ts : Int) : List Trade → PState → List Trade × PState
  | [], s => ([], s)
  | t :: rest, s =>
      if t.timeVal ≤ ts then consumeLE ts rest (applyTrade s t)
      else (t :: rest, s)

/-- The per-bar `map` body of `Analytics.tsx` lines 71–120: consume eligible
trades, then emit one record per bar. -/
def replayRows : List Trade → PState → List Bar → List Row
  | _, _, [] => []
  | tr, s, b :: bs =>
      let p := consumeLE b.timestamp tr s
      mkRow p.2 b :: replayRows p.1 p.2 bs

/-- The ledger/state pair carried by the replay after processing a prefix of
the bars (the pair `(sortedTrades, model state)` of the source, observed just
after the `while` loop of the last processed bar). -/
def replayState : List Trade → PState → List Bar → List Trade × PState
  | tr, s, [] => (tr, s)
  | tr, s, b :: bs =>
      let p := consumeLE b.timestamp tr s
      replayState p.1 p.2 bs

/-- One iteration of the trade `switch` in `src/unnamed/part_002` lines
84–104: identical to `applyTrade` except that the close labels are `'t/p'`
and `'close at stop'`. -/
def applyTrade2 (s : PState) (t : Trade) : PState :=
  let ty := lowerStr t.type
  if ty = "buy" then
    { openOrders := setKey s.openOrders t.time t.lots t.price,
      position := round2 (s.position + t.lots),
      closedProfit := s.closedProfit }
  else if ty = "sell" then
    { openOrders := setKey s.openOrders t.time (-t.lots) t.price,
      position := round2 (s.position - t.lots),
      closedProfit := s.closedProfit }
  else if ty = "t/p" ∨ ty = "close at stop" then
    match s.openOrders with
    | [] => s
    | (k, l, _) :: rest =>
        if k = "" then s
        else
          { openOrders := rest,
            position := round2 (s.position - (if 0 < l then 1 else -1) * t.lots),
            closedProfit := s.closedProfit + t.profitLoss }
  else s

/-- The `while` loop of `part_002` line 78, dispatching to `applyTrade2`. -/
def consumeLE2 (ts : Int) : List Trade → PState → List Trade × PState
  | [], s => ([], s)
  | t :: rest, s =>
      if t.timeVal ≤ ts then consumeLE2 ts rest (applyTrade2 s t)
      else (t :: rest, s)

/-- The per-bar `map` body of `part_002` lines 74–122 (identical record
construction, close dispatch via `applyTrade2`). -/
def replayRows2 : List Trade → PState → List Bar → List Row
  | _, _, [] => []
  | tr, s, b :: bs =>
      let p := consumeLE2 b.timestamp tr s
      mkRow p.2 b :: replayRows2 p.1 p.2 bs

/-- `calculateMetrics` (vite.config.ts module, lines 284–286): the closed
trades are those whose lowercased type is `'t/p'` or `'s/l'`. -/
def closedTradesOf (trades : List Trade) : List Trade :=
  trades.filter fun t => lowerStr t.type = "t/p" ∨ lowerStr t.type = "s/l"

/-- `closedTrades.length || 1` (line 287): the denominator floored at 1. -/
def totalClosedTrades (trades : List Trade) : ℕ :=
  let n := (closedTradesOf trades).length
  if n = 0 then 1 else n

/-- `winningTrades` (line 289): closed trades with positive realized P&L. -/
def winningTradesCount (trades : List Trade) : ℕ :=
  ((closedTradesOf trades).filter fun t => 0 < t.profitLoss).length

/-- The fraction `winningTrades / totalClosedTrades` of line 292 (the source
then scales by 100 and formats it as a percentage string). -/
def winRateFraction (trades : List Trade) : ℚ :=
  (winningTradesCount trades : ℚ) / (totalClosedTrades trades : ℚ)

/-- The drawdown loop state of `calculateMetrics` lines 314–316:
`(maxDrawdown, peak, balance)`, started at `(0, 0, 100000)`. -/
def ddInit : ℚ × ℚ × ℚ := (0, 0, 100000)

/-- One iteration of the drawdown loop (lines 318–327): add the trade's
realized P&L to the balance, lift the peak, compute
`peak > 0 ? (peak - balance) / peak * 100 : 0`, lift the maximum. -/
def ddStep (st : ℚ × ℚ × ℚ) (t : Trade) : ℚ × ℚ × ℚ :=
  let balance := st.2.2 + t.profitLoss
  let peak := if st.2.1 < balance then balance else st.2.1
  let dd := if 0 < peak then (peak - balance) / peak * 100 else 0
  let m := if st.1 < dd then dd else st.1
  (m, peak, balance)

/-- The loop state after the first `i` trades. -/
def ddStateAt (trades : List Trade) (i : ℕ) : ℚ × ℚ × ℚ :=
  (trades.take i).foldl ddStep ddInit

/-- The `maxDrawdown` accumulator after the first `i` trades. -/
def maxDDAt (trades : List Trade) (i : ℕ) : ℚ := (ddStateAt trades i).1

/-- The reported `maxDrawdown` percentage (before `toFixed(2) + '%'`). -/
def maxDrawdownOf (trades : List Trade) : ℚ := (trades.foldl ddStep ddInit).1

/-- A placeholder trade for out-of-range indexing (never reached under the
`i < trades.length` hypotheses below). -/
def defTrade : Trade :=
  { time := "", timeVal := 0, type := "", lots := 0, price := 0, profitLoss := 0 }

/-- The `drawdown` value computed while processing trade `i`
(line 323), from the loop state after the first `i` trades. -/
def drawdownAt (trades : List Trade) (i : ℕ) : ℚ :=
  let st := ddStateAt trades i
  let t := trades.getD i defTrade
  let balance := st.2.2 + t.profitLoss
  let peak := if st.2.1 < balance then balance else st.2.1
  if 0 < peak then (peak - balance) / peak * 100 else 0

/-! ### Concrete inputs used by the theorems below -/

/-- An orphan close trade: realized P&L −20, applied to the empty state. -/
def orphanClose : Trade :=
  { time := "c", timeVal := 0, type := "T/P", lots := 1, price := 1, profitLoss := -20 }

/-- A trade with an unrecognized type label. -/
def modifyTrade : Trade :=
  { time := "m", timeVal := 0, type := "Modify", lots := 1, price := 2, profitLoss := 7 }

/-- The FIFO scenario's first open: O1, 09:00, +1 lot @ 1.1000. -/
def tOpen1 : Trade :=
  { time := "o1", timeVal := 540, type := "BUY", lots := 1, price := 11/10, profitLoss := 0 }

/-- The FIFO scenario's second open: O2, 09:05, +1 lot @ 1.2000. -/
def tOpen2 : Trade :=
  { time := "o2", timeVal := 545, type := "BUY", lots := 1, price := 6/5, profitLoss := 0 }

/-- The FIFO scenario's close: C1, 09:10. -/
def tClose1 : Trade :=
  { time := "c1", timeVal := 550, type := "T/P", lots := 1, price := 6/5, profitLoss := 10 }

/-- A concrete bar for the C6 witness. -/
def bEx : Bar := { timestamp := 0, close := 2, conversionFx := 1 }

/-- A concrete losing close for the C8 witness. -/
def tLoss : Trade :=
  { time := "l", timeVal := 0, type := "T/P", lots := 1, price := 1, profitLoss := -10 }

/-- A state with one open long lot, on which the two close-label sets
demonstrably diverge. -/
def slState : PState := { openOrders := [("a", 1, 1)], position := 1, closedProfit := 0 }

/-- A stop-loss close trade (label recognized only by `Analytics.tsx`). -/
def slTrade : Trade :=
  { time := "s", timeVal := 0, type := "S/L", lots := 1, price := 1, profitLoss := 5 }

/-- C4 witness trades/bars: trades at times 1 and 5, bars at times 2 and 3
(the second trade lies beyond every bar). -/
def tw1 : Trade :=
  { time := "w1", timeVal := 1, type := "BUY", lots := 1, price := 2, profitLoss := 0 }

def tw2 : Trade :=
  { time := "w2", timeVal := 5, type := "BUY", lots := 1, price := 2, profitLoss := 0 }

def bw1 : Bar := { timestamp := 2, close := 2, conversionFx := 1 }

def bw2 : Bar := { timestamp := 3, close := 2, conversionFx := 1 }

/-- A close whose lot size (0.5) differs from the open lot it consumes. -/
def cexClose : Trade :=
  { time := "c", timeVal := 1, type := "T/P", lots := 1/2, price := 1, profitLoss := 0 }

/-- The state after `BUY 1 lot @ 1.1000` (keyed by time `"o1"`). -/
def cexMid : PState :=
  { openOrders := [("o1", 1, 11/10)], position := 1, closedProfit := 0 }

/-! ### Helper lemmas -/

theorem round2_intCast (k : ℤ) : round2 (k : ℚ) = (k : ℚ) := by
  unfold round2
  have h : (k : ℚ) * 100 + 1/2 = ((k * 100 : ℤ) : ℚ) + 1/2 := by push_cast; ring
  rw [h, Int.floor_int_add]
  norm_num

theorem foldl_add_map (f : LotEntry → ℚ) (l : List LotEntry) (a : ℚ) :
    l.foldl (fun acc e => acc + f e) a = a + (l.map f).sum := by
  induction l generalizing a with
  | nil => simp
  | cons e rest ih => simp [List.foldl_cons, ih, add_assoc]

theorem applyTrades_cons (t : Trade) (l : List Trade) (s : PState) :
    applyTrades (t :: l) s = applyTrades l (applyTrade s t) := rfl

theorem applyTrades_append (l₁ l₂ : List Trade) (s : PState) :
    applyTrades (l₁ ++ l₂) s = applyTrades l₂ (applyTrades l₁ s) := by
  unfold applyTrades
  exact List.foldl_append ..

/-! ### C1 — orphan close -/

/-- C1 counterexample: the claim says an orphan close still adds its realized
P&L (−20) to the closed-P&L accumulator. In the code the accumulation
`closedProfit += profitLoss` sits inside the `if (orderKey)` guard
(`Analytics.tsx` lines 93–99), so an orphan close leaves the accumulator at
`0`, not `−20` (the net position is indeed unchanged at 0). -/
theorem orphan_close_pnl_not_added :
    (applyTrade pState0 orphanClose).closedProfit = 0 ∧
    (applyTrade pState0 orphanClose).closedProfit ≠ -20 ∧
    (applyTrade pState0 orphanClose).position = 0 := by
  norm_num [applyTrade, pState0, orphanClose,
    show lowerStr "T/P" = "t/p" from by decide,
    show ("t/p" : String) ≠ "buy" from by decide,
    show ("t/p" : String) ≠ "sell" from by decide]

/-- C1 (amended): an orphan close — a close trade applied when the open-lot
map is empty — is tolerated without error and leaves the whole state
unchanged: the net position stays as it was and the trade's realized P&L is
NOT added to the closed-P&L accumulator. -/
theorem orphan_close_state_unchanged (s : PState) (t : Trade)
    (hty : lowerStr t.type = "t/p" ∨ lowerStr t.type = "s/l")
    (hempty : s.openOrders = []) :
    applyTrade s t = s := by
  unfold applyTrade
  rcases hty with h | h <;> rw [h] <;> simp [hempty]

/-- C1 witness: the amended theorem applied to the concrete orphan close. -/
theorem orphan_close_state_unchanged_witness :
    applyTrade pState0 orphanClose = pState0 :=
  orphan_close_state_unchanged pState0 orphanClose
    (Or.inl (by decide)) rfl

/-! ### C10 — unknown trade types -/

/-- C10: a ledger trade whose lowercased type is none of `'buy'`, `'sell'`,
`'t/p'`, `'s/l'` leaves the entire replay state unchanged (open-lot map, net
position and closed-P&L accumulator), yet is still consumed from the ledger
once its timestamp is reached, never to be reconsidered. -/
theorem unknown_type_consumed_no_effect (s : PState) (t : Trade)
    (rest : List Trade) (ts : Int)
    (hty : lowerStr t.type ∉ (["buy", "sell", "t/p", "s/l"] : List String)) :
    applyTrade s t = s ∧
    (t.timeVal ≤ ts → consumeLE ts (t :: rest) s = consumeLE ts rest s) := by
  simp only [List.mem_cons, List.mem_singleton, not_or] at hty
  obtain ⟨h1, h2, h3, h4⟩ := hty
  have happ : applyTrade s t = s := by
    unfold applyTrade
    simp [h1, h2, h3, h4]
  refine ⟨happ, fun hle => ?_⟩
  conv_lhs => rw [consumeLE]
  rw [if_pos hle, happ]

/-- C10 witness: the theorem applied to a concrete `'Modify'` trade. -/
theorem unknown_type_consumed_no_effect_witness :
    applyTrade pState0 modifyTrade = pState0 ∧
    consumeLE 3 [modifyTrade] pState0 = consumeLE 3 [] pState0 := by
  have h := unknown_type_consumed_no_effect pState0 modifyTrade [] 3 (by decide)
  exact ⟨h.1, h.2 (by decide)⟩

/-! ### C5 — average entry price -/

/-- C5: `calculateAverageEntryPrice` returns the signed-lot-weighted mean of
the open lots' entry prices — `sum(signedLots·entryPrice) / sum(signedLots)`
— whenever `|sum(signedLots)|` clears the `0.001` tolerance, and the sentinel
`0` whenever it is below the tolerance band. -/
theorem aep_signed_weighted_mean (orders : List LotEntry) :
    (1/1000 < |sumLots orders| →
      calculateAverageEntryPrice orders =
        ((orders.map fun e => e.2.1 * e.2.2).sum) / ((orders.map fun e => e.2.1).sum)) ∧
    (|sumLots orders| < 1/1000 → calculateAverageEntryPrice orders = 0) := by
  have hs : orders.foldl (fun acc e => acc + e.2.1) 0 = sumLots orders := by
    simpa [sumLots] using foldl_add_map (fun e => e.2.1) orders 0
  have hw : orders.foldl (fun acc e => acc + e.2.1 * e.2.2) 0 =
      (orders.map fun e => e.2.1 * e.2.2).sum := by
    simpa using foldl_add_map (fun e => e.2.1 * e.2.2) orders 0
  constructor
  · intro h
    unfold calculateAverageEntryPrice
    rw [hs, hw, if_pos h, sumLots]
  · intro h
    unfold calculateAverageEntryPrice
    rw [hs, hw, if_neg (by intro hc; exact absurd (lt_trans hc h) (lt_irrefl _))]

/-- C5 witness: weighted mean on a two-lot map and the sentinel on the empty
map. -/
theorem aep_signed_weighted_mean_witness :
    calculateAverageEntryPrice [("a", 1, 11/10), ("b", 1, 12/10)] = 23/20 ∧
    calculateAverageEntryPrice ([] : List LotEntry) = 0 := by
  constructor
  · have h := (aep_signed_weighted_mean [("a", 1, 11/10), ("b", 1, 12/10)]).1
      (by norm_num [sumLots])
    rw [h]; norm_num
  · exact (aep_signed_weighted_mean []).2 (by norm_num [sumLots])

/-! ### C7 — win rate -/

/-- C7: the win-rate fraction equals `winningClosedCount / max(closedCount, 1)`
(the `closedTrades.length || 1` guard is exactly flooring the denominator at
1), closed trades being those of type `'t/p'` or `'s/l'`; with zero closed
trades the rate is `0`, and the denominator is positive, so the division is
always well defined (never NaN). -/
theorem winRate_floored_denominator (trades : List Trade) :
    winRateFraction trades =
      (winningTradesCount trades : ℚ) / ((max (closedTradesOf trades).length 1 : ℕ) : ℚ) ∧
    ((closedTradesOf trades).length = 0 → winRateFraction trades = 0) ∧
    0 < totalClosedTrades trades := by
  have hmax : totalClosedTrades trades = max (closedTradesOf trades).length 1 := by
    unfold totalClosedTrades
    rcases Nat.eq_zero_or_pos (closedTradesOf trades).length with h | h
    · simp [h]
    · rw [if_neg (Nat.pos_iff_ne_zero.mp h), Nat.max_eq_left h]
  refine ⟨by rw [winRateFraction, hmax], fun h0 => ?_, ?_⟩
  · have hnil : closedTradesOf trades = [] := List.length_eq_zero.mp h0
    have hwin : winningTradesCount trades = 0 := by
      unfold winningTradesCount
      rw [hnil]
      rfl
    unfold winRateFraction
    rw [hwin]
    norm_num
  · rw [hmax]
    exact lt_of_lt_of_le Nat.one_pos (le_max_right _ _)

/-- C7 witness: the zero-closed-trades case on the empty ledger. -/
theorem winRate_floored_denominator_witness :
    winRateFraction [] = 0 ∧ 0 < totalClosedTrades [] :=
  ⟨(winRate_floored_denominator []).2.1 rfl, (winRate_floored_denominator []).2.2⟩

/-! ### C3 — FIFO close -/

/-- C3: a close trade consumes the insertion-order head of the open-lot map —
the oldest open lot — regardless of its price or size, and accumulates the
close's realized P&L. -/
theorem close_consumes_fifo_head (s : PState) (t : Trade)
    (hty : lowerStr t.type = "t/p" ∨ lowerStr t.type = "s/l")
    (k : String) (l p : ℚ) (rest : List LotEntry)
    (hm : s.openOrders = (k, l, p) :: rest) (hk : k ≠ "") :
    (applyTrade s t).openOrders = rest ∧
    (applyTrade s t).closedProfit = s.closedProfit + t.profitLoss := by
  unfold applyTrade
  rcases hty with h | h <;> rw [h] <;> simp [hm, hk]

/-- C3 witness: after opens O1 (+1 @ 1.1000) and O2 (+1 @ 1.2000), the close
C1 consumes O1, and the average entry price of what remains is O2's price,
1.2000. -/
theorem close_consumes_fifo_head_witness :
    (applyTrade (applyTrade (applyTrade pState0 tOpen1) tOpen2) tClose1).openOrders
      = [("o2", 1, 6/5)] ∧
    calculateAverageEntryPrice
      (applyTrade (applyTrade (applyTrade pState0 tOpen1) tOpen2) tClose1).openOrders
      = 6/5 := by
  have hs : (applyTrade (applyTrade pState0 tOpen1) tOpen2).openOrders
      = [("o1", 1, 11/10), ("o2", 1, 6/5)] := by
    norm_num [applyTrade, pState0, tOpen1, tOpen2, setKey,
      show lowerStr "BUY" = "buy" from by decide,
      show ("o1" : String) ≠ "o2" from by decide]
  have h := close_consumes_fifo_head _ tClose1
    (Or.inl (show lowerStr tClose1.type = "t/p" from by decide))
    "o1" 1 (11/10) [("o2", 1, 6/5)] hs (by decide)
  refine ⟨h.1, ?_⟩
  rw [h.1]
  norm_num [calculateAverageEntryPrice, List.foldl]

/-! ### C6 — floating P&L -/

theorem round2_div100 (q : ℚ) : ∃ k : ℤ, round2 q = (k : ℚ) / 100 :=
  ⟨⌊q * 100 + 1/2⌋, rfl⟩

theorem applyTrade_position_cases (s : PState) (t : Trade) :
    (applyTrade s t).position = s.position ∨
    ∃ q : ℚ, (applyTrade s t).position = round2 q := by
  by_cases hb : lowerStr t.type = "buy"
  · exact Or.inr ⟨s.position + t.lots, by simp [applyTrade, hb]⟩
  · by_cases hs : lowerStr t.type = "sell"
    · exact Or.inr ⟨s.position - t.lots, by simp [applyTrade, hb, hs]⟩
    · by_cases hc : lowerStr t.type = "t/p" ∨ lowerStr t.type = "s/l"
      · rcases hm : s.openOrders with _ | ⟨⟨k, l, p⟩, rest⟩
        · exact Or.inl (by simp [applyTrade, hb, hs, hc, hm])
        · by_cases hk : k = ""
          · exact Or.inl (by simp [applyTrade, hb, hs, hc, hm, hk])
          · exact Or.inr ⟨s.position - (if 0 < l then 1 else -1) * t.lots,
              by simp [applyTrade, hb, hs, hc, hm, hk]⟩
      · exact Or.inl (by simp [applyTrade, hb, hs, hc])

/-- Every reachable net position is an exact multiple of `0.01`, because every
position update goes through `toFixed(2)`. -/
theorem applyTrades_position_div100 (l : List Trade) (s : PState)
    (h : ∃ k : ℤ, s.position = (k : ℚ) / 100) :
    ∃ k : ℤ, (applyTrades l s).position = (k : ℚ) / 100 := by
  induction l generalizing s with
  | nil => exact h
  | cons t rest ih =>
      rw [applyTrades_cons]
      apply ih
      rcases applyTrade_position_cases s t with hc | ⟨q, hq⟩
      · rw [hc]; exact h
      · rw [hq]; exact round2_div100 q

/-- C6: at every reachable replay state (hence at every bar valuation), the
floating P&L is `0` when the absolute net position is below the `0.001`
tolerance, and otherwise equals
`(barClose − averageEntryPrice) · netPosition · 100000 / conversionFx`, with
`100000` the fixed lot-notional contract size. (The code's guard is
`> 0.001`, but positions are multiples of `0.01` because every update passes
through `toFixed(2)`, so the boundary case `|position| = 0.001` is
unreachable and both readings agree.) -/
theorem floating_pnl_formula (trades : List Trade) (b : Bar) :
    (|(applyTrades trades pState0).position| < 1/1000 →
        floatingOf (applyTrades trades pState0) b = 0) ∧
    (¬ |(applyTrades trades pState0).position| < 1/1000 →
        floatingOf (applyTrades trades pState0) b =
          (b.close - calculateAverageEntryPrice (applyTrades trades pState0).openOrders)
            * (applyTrades trades pState0).position * 100000 / b.conversionFx) := by
  constructor
  · intro h
    unfold floatingOf
    rw [if_neg fun hc => absurd (lt_trans hc h) (lt_irrefl _)]
  · intro h
    push_neg at h
    obtain ⟨k, hk⟩ := applyTrades_position_div100 trades pState0 ⟨0, by norm_num [pState0]⟩
    have hne : (applyTrades trades pState0).position ≠ 0 := by
      intro h0
      rw [h0] at h
      norm_num at h
    have hk0 : k ≠ 0 := by
      intro h0
      apply hne
      rw [hk, h0]
      norm_num
    have h1 : (1 : ℚ) ≤ |(k : ℚ)| := by
      have := Int.one_le_abs hk0
      calc (1 : ℚ) ≤ (|k| : ℤ) := by exact_mod_cast this
        _ = |(k : ℚ)| := by push_cast; ring
    have hgt : 1/1000 < |(applyTrades trades pState0).position| := by
      rw [hk, abs_div]
      have h100 : |(100 : ℚ)| = 100 := by norm_num
      rw [h100]
      linarith
    unfold floatingOf
    rw [if_pos hgt]

/-- C6 witness: the zero branch on the empty ledger (flat position) and the
formula branch after one buy. -/
theorem floating_pnl_formula_witness :
    floatingOf (applyTrades [] pState0) bEx = 0 ∧
    floatingOf (applyTrades [tBuy1] pState0) bEx =
      (bEx.close - calculateAverageEntryPrice (applyTrades [tBuy1] pState0).openOrders)
        * (applyTrades [tBuy1] pState0).position * 100000 / bEx.conversionFx := by
  constructor
  · exact (floating_pnl_formula [] bEx).1 (by norm_num [applyTrades, pState0])
  · exact (floating_pnl_formula [tBuy1] bEx).2 (by
      norm_num [applyTrades, applyTrade, pState0, tBuy1, round2, setKey,
        show lowerStr "BUY" = "buy" from by decide])

/-! ### C8 — max drawdown -/

theorem ite_lt_eq_max (a b : ℚ) : (if a < b then b else a) = max a b := by
  rcases le_or_lt b a with h | h
  · rw [if_neg (not_lt.mpr h), max_eq_left h]
  · rw [if_pos h, max_eq_right h.le]

theorem ddStep_fst_eq_max (st : ℚ × ℚ × ℚ) (t : Trade) :
    (ddStep st t).1 =
      max st.1
        (let balance := st.2.2 + t.profitLoss
         let peak := if st.2.1 < balance then balance else st.2.1
         if 0 < peak then (peak - balance) / peak * 100 else 0) := by
  unfold ddStep
  exact ite_lt_eq_max _ _

theorem foldl_ddStep_fst_nonneg (l : List Trade) (st : ℚ × ℚ × ℚ)
    (h : 0 ≤ st.1) : 0 ≤ (l.foldl ddStep st).1 := by
  induction l generalizing st with
  | nil => exact h
  | cons t rest ih =>
      rw [List.foldl_cons]
      apply ih
      rw [ddStep_fst_eq_max]
      exact le_trans h (le_max_left _ _)

/-- C8: at every step of the drawdown simulation (balance seeded at 100000,
peak tracked as a running maximum, drawdown `(peak − balance)/peak·100` when
`peak > 0`, else `0`), the per-step drawdown is non-negative; the
`maxDrawdown` accumulator after step `i+1` is exactly the maximum of its
previous value and step `i`'s drawdown — i.e. the running maximum of the
per-step values — hence it is monotonically non-decreasing and the reported
`maxDrawdown` is non-negative. -/
theorem drawdown_nonneg_running_max (trades : List Trade) (i : ℕ)
    (h : i < trades.length) :
    0 ≤ drawdownAt trades i ∧
    maxDDAt trades (i+1) = max (maxDDAt trades i) (drawdownAt trades i) ∧
    maxDDAt trades i ≤ maxDDAt trades (i+1) ∧
    0 ≤ maxDrawdownOf trades := by
  have hgen : ∀ (bal prevPeak : ℚ),
      0 ≤ if 0 < (if prevPeak < bal then bal else prevPeak) then
            ((if prevPeak < bal then bal else prevPeak) - bal)
              / (if prevPeak < bal then bal else prevPeak) * 100
          else 0 := by
    intro bal prevPeak
    have hple : bal ≤ (if prevPeak < bal then bal else prevPeak) := by
      split_ifs with hlt
      · exact le_refl _
      · exact not_lt.mp hlt
    set peak := if prevPeak < bal then bal else prevPeak
    split_ifs with hpos
    · have hnum : 0 ≤ peak - bal := sub_nonneg.mpr hple
      positivity
    · exact le_refl 0
  have hnn : 0 ≤ drawdownAt trades i := by
    unfold drawdownAt
    exact hgen _ _
  have htake : trades.take (i+1) = trades.take i ++ [trades.getD i defTrade] := by
    rw [List.take_succ, List.getElem?_eq_getElem h]
    have : trades.getD i defTrade = trades[i] := List.getD_eq_getElem trades defTrade h
    rw [this]
    rfl
  have hstate : ddStateAt trades (i+1) =
      ddStep (ddStateAt trades i) (trades.getD i defTrade) := by
    unfold ddStateAt
    rw [htake, List.foldl_append]
    rfl
  have hstep : maxDDAt trades (i+1) = max (maxDDAt trades i) (drawdownAt trades i) := by
    unfold maxDDAt
    rw [hstate, ddStep_fst_eq_max]
    rfl
  refine ⟨hnn, hstep, ?_, ?_⟩
  · rw [hstep]
    exact le_max_left _ _
  · exact foldl_ddStep_fst_nonneg trades ddInit (le_refl 0)

/-- C8 witness: the theorem instantiated on a one-trade ledger. -/
theorem drawdown_nonneg_running_max_witness :
    0 ≤ drawdownAt [tLoss] 0 ∧
    maxDDAt [tLoss] 1 = max (maxDDAt [tLoss] 0) (drawdownAt [tLoss] 0) ∧
    maxDDAt [tLoss] 0 ≤ maxDDAt [tLoss] 1 ∧
    0 ≤ maxDrawdownOf [tLoss] :=
  drawdown_nonneg_running_max [tLoss] 0 (by norm_num)

/-! ### C9 — the two duplicated replay implementations -/

theorem applyTrade_eq_applyTrade2 (s : PState) (t : Trade)
    (h1 : lowerStr t.type ≠ "s/l") (h2 : lowerStr t.type ≠ "close at stop") :
    applyTrade s t = applyTrade2 s t := by
  unfold applyTrade applyTrade2
  by_cases hb : lowerStr t.type = "buy"
  · simp [hb]
  · by_cases hs : lowerStr t.type = "sell"
    · simp [hb, hs]
    · by_cases htp : lowerStr t.type = "t/p"
      · simp [hb, hs, htp]
      · simp [hb, hs, htp, h1, h2]

theorem consumeLE_eq_consumeLE2 (ts : Int) (l : List Trade) (s : PState)
    (h : ∀ t ∈ l, lowerStr t.type ∈ (["buy", "sell", "t/p"] : List String)) :
    consumeLE ts l s = consumeLE2 ts l s := by
  induction l generalizing s with
  | nil => rfl
  | cons t rest ih =>
      have ht := h t (List.mem_cons_self t rest)
      simp only [List.mem_cons, List.mem_singleton, List.not_mem_nil, or_false] at ht
      have hne1 : lowerStr t.type ≠ "s/l" := by
        rcases ht with h' | h' | h' <;> rw [h'] <;> decide
      have hne2 : lowerStr t.type ≠ "close at stop" := by
        rcases ht with h' | h' | h' <;> rw [h'] <;> decide
      conv_lhs => rw [consumeLE]
      conv_rhs => rw [consumeLE2]
      by_cases hle : t.timeVal ≤ ts
      · rw [if_pos hle, if_pos hle, ← applyTrade_eq_applyTrade2 s t hne1 hne2]
        exact ih _ fun x hx => h x (List.mem_cons_of_mem _ hx)
      · rw [if_neg hle, if_neg hle]

theorem consumeLE_fst_subset (ts : Int) (l : List Trade) (s : PState) :
    ∀ t ∈ (consumeLE ts l s).1, t ∈ l := by
  induction l generalizing s with
  | nil => intro t ht; simp [consumeLE] at ht
  | cons x rest ih =>
      intro t ht
      rw [consumeLE] at ht
      by_cases hle : x.timeVal ≤ ts
      · rw [if_pos hle] at ht
        exact List.mem_cons_of_mem _ (ih _ t ht)
      · rw [if_neg hle] at ht
        exact ht

theorem replayRows_eq_aux (bars : List Bar) :
    ∀ (l : List Trade) (s : PState),
    (∀ t ∈ l, lowerStr t.type ∈ (["buy", "sell", "t/p"] : List String)) →
    replayRows l s bars = replayRows2 l s bars := by
  induction bars with
  | nil => intro l s _; rfl
  | cons b bs ih =>
      intro l s h
      conv_lhs => rw [replayRows]
      conv_rhs => rw [replayRows2]
      rw [← consumeLE_eq_consumeLE2 b.timestamp l s h]
      congr 1
      exact ih _ _ fun t ht => h t (consumeLE_fst_subset b.timestamp l s t ht)

/-- C9: the two duplicated `periodData` implementations (`Analytics.tsx` and
`part_002`) produce identical per-bar records — position, closed P&L, AEP,
bar close, conversion FX, floating P&L and total — on every ledger whose
lowercased trade types are only `'buy'`, `'sell'`, `'t/p'`, and on every
price series; their trade dispatch agrees on every trade whose lowercased
type is neither `'s/l'` nor `'close at stop'`, and it genuinely diverges on
an `'S/L'` close against an open lot. -/
theorem duplicated_replays_agree :
    (∀ (trades : List Trade) (bars : List Bar),
        (∀ t ∈ trades, lowerStr t.type ∈ (["buy", "sell", "t/p"] : List String)) →
        replayRows trades pState0 bars = replayRows2 trades pState0 bars) ∧
    (∀ (s : PState) (t : Trade), lowerStr t.type ≠ "s/l" →
        lowerStr t.type ≠ "close at stop" → applyTrade s t = applyTrade2 s t) ∧
    applyTrade slState slTrade ≠ applyTrade2 slState slTrade := by
  refine ⟨fun trades bars h => replayRows_eq_aux bars trades pState0 h,
          applyTrade_eq_applyTrade2, fun hEq => ?_⟩
  have h := congrArg PState.closedProfit hEq
  rw [show applyTrade slState slTrade =
        { openOrders := [], position := 0, closedProfit := 5 } from by
      norm_num [applyTrade, slState, slTrade, round2,
        show lowerStr "S/L" = "s/l" from by decide,
        show ("s/l" : String) ≠ "buy" from by decide,
        show ("s/l" : String) ≠ "sell" from by decide,
        show ("s/l" : String) ≠ "t/p" from by decide,
        show ("a" : String) ≠ "" from by decide],
      show applyTrade2 slState slTrade = slState from by
      norm_num [applyTrade2, slState, slTrade,
        show lowerStr "S/L" = "s/l" from by decide,
        show ("s/l" : String) ≠ "buy" from by decide,
        show ("s/l" : String) ≠ "sell" from by decide,
        show ("s/l" : String) ≠ "t/p" from by decide,
        show ("s/l" : String) ≠ "close at stop" from by decide]] at h
  norm_num [slState] at h

/-- C9 witness: the replay equality and the dispatch equality at concrete
inputs. -/
theorem duplicated_replays_agree_witness :
    replayRows [tBuy1] pState0 [bEx] = replayRows2 [tBuy1] pState0 [bEx] ∧
    applyTrade pState0 tBuy1 = applyTrade2 pState0 tBuy1 := by
  refine ⟨duplicated_replays_agree.1 [tBuy1] [bEx] ?_,
          duplicated_replays_agree.2.1 pState0 tBuy1 (by decide) (by decide)⟩
  intro t ht
  rw [List.mem_singleton] at ht
  rw [ht]
  decide

/-! ### C4 — time-ordered ledger consumption -/

theorem consumeLE_sorted_eq (ts : Int) (l : List Trade) (s : PState)
    (hl : l.Pairwise fun a b => a.timeVal ≤ b.timeVal) :
    consumeLE ts l s =
      (l.filter fun t => ts < t.timeVal,
       applyTrades (l.filter fun t => t.timeVal ≤ ts) s) := by
  induction l generalizing s with
  | nil => rfl
  | cons t rest ih =>
      rcases List.pairwise_cons.mp hl with ⟨hhead, hrest⟩
      by_cases hle : t.timeVal ≤ ts
      · have hf1 : ((t :: rest).filter fun x => ts < x.timeVal)
            = rest.filter fun x => ts < x.timeVal := by
          simp [List.filter_cons, not_lt.mpr hle]
        have hf2 : ((t :: rest).filter fun x => x.timeVal ≤ ts)
            = t :: rest.filter fun x => x.timeVal ≤ ts := by
          simp [List.filter_cons, hle]
        rw [hf1, hf2, applyTrades_cons]
        conv_lhs => rw [consumeLE]
        rw [if_pos hle]
        exact ih (applyTrade s t) hrest
      · have hlt : ts < t.timeVal := not_le.mp hle
        have hall : ∀ x ∈ rest, ts < x.timeVal :=
          fun x hx => lt_of_lt_of_le hlt (hhead x hx)
        have hf1 : ((t :: rest).filter fun x => ts < x.timeVal) = t :: rest := by
          rw [List.filter_cons, if_pos (by simpa using hlt)]
          congr 1
          exact List.filter_eq_self.mpr fun x hx => by simpa using hall x hx
        have hf2 : ((t :: rest).filter fun x => x.timeVal ≤ ts) = [] := by
          rw [List.filter_cons, if_neg (by simpa using hle)]
          exact List.filter_eq_nil_iff.mpr fun x hx => by simpa using not_le.mpr (hall x hx)
        rw [hf1, hf2]
        conv_lhs => rw [consumeLE]
        rw [if_neg hle]
        rfl

theorem filter_le_split (l : List Trade)
    (hl : l.Pairwise fun a b => a.timeVal ≤ b.timeVal) (T1 T2 : Int) (h12 : T1 ≤ T2) :
    (l.filter fun t => t.timeVal ≤ T2) =
      (l.filter fun t => t.timeVal ≤ T1)
        ++ l.filter fun t => T1 < t.timeVal ∧ t.timeVal ≤ T2 := by
  induction l with
  | nil => rfl
  | cons t rest ih =>
      rcases List.pairwise_cons.mp hl with ⟨hhead, hrest⟩
      by_cases ht1 : t.timeVal ≤ T1
      · have ht2 : t.timeVal ≤ T2 := le_trans ht1 h12
        simp only [List.filter_cons]
        rw [if_pos (by simpa using ht2), if_pos (by simpa using ht1),
            if_neg (by simp [not_lt.mpr ht1]), List.cons_append]
        congr 1
        exact ih hrest
      · have hlt : T1 < t.timeVal := not_le.mp ht1
        have hallrest : ∀ x ∈ rest, T1 < x.timeVal :=
          fun x hx => lt_of_lt_of_le hlt (hhead x hx)
        have hnil : ((t :: rest).filter fun x => x.timeVal ≤ T1) = [] := by
          rw [List.filter_cons, if_neg (by simpa using ht1)]
          exact List.filter_eq_nil_iff.mpr fun x hx => by
            simpa using not_le.mpr (hallrest x hx)
        rw [hnil, List.nil_append]
        apply List.filter_congr
        intro x hx
        have hx1 : T1 < x.timeVal := by
          rcases List.mem_cons.mp hx with h' | h'
          · rw [h']; exact hlt
          · exact hallrest x h'
        simp [hx1]

theorem replayState_characterization : ∀ (bars : List Bar) (l : List Trade) (s : PState),
    (bars.Pairwise fun a b => a.timestamp ≤ b.timestamp) →
    (l.Pairwise fun a b => a.timeVal ≤ b.timeVal) →
    ∀ i (hi : i < bars.length),
      replayState l s (bars.take (i+1)) =
        ((l.filter fun t => (bars.get ⟨i, hi⟩).timestamp < t.timeVal),
         applyTrades (l.filter fun t => t.timeVal ≤ (bars.get ⟨i, hi⟩).timestamp) s) := by
  intro bars
  induction bars with
  | nil => intro l s _ _ i hi; exact absurd hi (by simp)
  | cons b bs ih =>
      intro l s hB hT i hi
      rcases List.pairwise_cons.mp hB with ⟨hbhead, hbrest⟩
      have hcons : consumeLE b.timestamp l s =
          (l.filter fun t => b.timestamp < t.timeVal,
           applyTrades (l.filter fun t => t.timeVal ≤ b.timestamp) s) :=
        consumeLE_sorted_eq _ _ _ hT
      have hstep : replayState l s ((b :: bs).take (i+1)) =
          replayState (l.filter fun t => b.timestamp < t.timeVal)
            (applyTrades (l.filter fun t => t.timeVal ≤ b.timestamp) s)
            (bs.take i) := by
        rw [List.take_succ_cons]
        conv_lhs => rw [replayState]
        rw [hcons]
      match i with
      | 0 =>
          rw [hstep]
          rfl
      | Nat.succ j =>
          have hj : j < bs.length := Nat.lt_of_succ_lt_succ hi
          have hget : (b :: bs).get ⟨j+1, hi⟩ = bs.get ⟨j, hj⟩ := rfl
          have hble : b.timestamp ≤ (bs.get ⟨j, hj⟩).timestamp :=
            hbhead _ (bs.get_mem _ _)
          rw [hstep, hget,
              ih (l.filter fun t => b.timestamp < t.timeVal) _ hbrest
                (hT.filter _) j hj]
          have hE1 : ((l.filter fun t => b.timestamp < t.timeVal).filter
                fun t => (bs.get ⟨j, hj⟩).timestamp < t.timeVal)
              = l.filter fun t => (bs.get ⟨j, hj⟩).timestamp < t.timeVal := by
            rw [List.filter_filter]
            apply List.filter_congr
            intro x _
            by_cases hx : (bs.get ⟨j, hj⟩).timestamp < x.timeVal
            · simp [hx, lt_of_le_of_lt hble hx]
            · simp [hx]
              exact fun h' => lt_of_le_of_lt hble h'
          have hE2 : ((l.filter fun t => b.timestamp < t.timeVal).filter
                fun t => t.timeVal ≤ (bs.get ⟨j, hj⟩).timestamp)
              = l.filter fun t =>
                  b.timestamp < t.timeVal ∧ t.timeVal ≤ (bs.get ⟨j, hj⟩).timestamp := by
            rw [List.filter_filter]
            apply List.filter_congr
            intro x _
            by_cases hx1 : b.timestamp < x.timeVal
              <;> by_cases hx2 : x.timeVal ≤ (bs.get ⟨j, hj⟩).timestamp
              <;> simp [hx1, hx2]
          rw [hE1, hE2, ← applyTrades_append,
              ← filter_le_split l hT b.timestamp (bs.get ⟨j, hj⟩).timestamp hble]

/-- C4: on a time-sorted ledger and an ascending price series, the state used
for the `i`-th bar's valuation record is exactly the fold of the ledger
trades with timestamp `≤` that bar's timestamp (each ledger entry applied
once, in order), with precisely the later trades still pending; and every
trade whose timestamp exceeds every bar's timestamp is still in the pending
list after the whole replay — it is never applied (silently dropped). -/
theorem replay_consumes_time_prefix (trades : List Trade) (bars : List Bar)
    (hT : trades.Pairwise fun a b => a.timeVal ≤ b.timeVal)
    (hB : bars.Pairwise fun a b => a.timestamp ≤ b.timestamp) :
    (∀ i (hi : i < bars.length),
      replayState trades pState0 (bars.take (i+1)) =
        ((trades.filter fun t => (bars.get ⟨i, hi⟩).timestamp < t.timeVal),
         applyTrades
           (trades.filter fun t => t.timeVal ≤ (bars.get ⟨i, hi⟩).timestamp)
           pState0)) ∧
    (∀ t ∈ trades, (∀ b ∈ bars, b.timestamp < t.timeVal) →
      t ∈ (replayState trades pState0 bars).1) := by
  refine ⟨fun i hi => replayState_characterization bars trades pState0 hB hT i hi, ?_⟩
  intro t ht hbeyond
  match hbars : bars with
  | [] => exact ht
  | b :: bs =>
      have hlen : bs.length < (b :: bs).length := by simp
      have htake : (b :: bs).take (bs.length + 1) = b :: bs := by
        have hlen1 : bs.length + 1 = (b :: bs).length := by simp
        rw [hlen1, List.take_length]
      have hchar :=
        replayState_characterization (b :: bs) trades pState0
          (hbars ▸ hB) hT bs.length hlen
      rw [htake] at hchar
      rw [hchar]
      apply List.mem_filter.mpr
      refine ⟨ht, ?_⟩
      have hmem : (b :: bs).get ⟨bs.length, hlen⟩ ∈ b :: bs := List.get_mem _ _ _
      simpa using hbeyond _ hmem

/-- C4 witness: at the first bar exactly the time-1 trade has been applied,
and the time-5 trade survives the whole replay unapplied. -/
theorem replay_consumes_time_prefix_witness :
    replayState [tw1, tw2] pState0 ([bw1, bw2].take 1) =
      ([tw2], applyTrades [tw1] pState0) ∧
    tw2 ∈ (replayState [tw1, tw2] pState0 [bw1, bw2]).1 := by
  have h := replay_consumes_time_prefix [tw1, tw2] [bw1, bw2]
    (by simp [tw1, tw2]) (by simp [bw1, bw2])
  constructor
  · have h0 := h.1 0 (by norm_num)
    rw [h0]
    norm_num [tw1, tw2, bw1, bw2, List.filter]
  · exact h.2 tw2 (by simp)
      (by intro b hb; rcases List.mem_cons.mp hb with h' | h'
          · rw [h']; norm_num [bw1, tw2]
          · rw [List.mem_singleton.mp h']; norm_num [bw2, tw2])


/-! ### C2 — net position vs. summed open lots -/

theorem setKey_not_mem (m : List LotEntry) (k : String) (l p : ℚ)
    (h : k ∉ m.map fun e => e.1) : setKey m k l p = m ++ [(k, l, p)] := by
  induction m with
  | nil => rfl
  | cons e rest ih =>
      obtain ⟨ke, le, pe⟩ := e
      simp only [List.map_cons, List.mem_cons, not_or] at h
      unfold setKey
      rw [if_neg fun hc => h.1 hc.symm, List.cons_append]
      congr 1
      exact ih h.2

/-- One preservation step of the net-position bookkeeping, under unit lot
sizes and a fresh map key: position stays equal to the summed open lots, all
open lots stay `±1`, the position stays an integer, and any key of the new
map was either an old key or the trade's own time. -/
theorem applyTrade_inv_step (s : PState) (t : Trade)
    (ht1 : t.lots = 1)
    (hfresh : t.time ∉ s.openOrders.map fun e => e.1)
    (hpos : s.position = sumLots s.openOrders)
    (hunit : ∀ e ∈ s.openOrders, e.2.1 = 1 ∨ e.2.1 = -1)
    (hint : ∃ k : ℤ, s.position = (k : ℚ)) :
    (applyTrade s t).position = sumLots (applyTrade s t).openOrders ∧
    (∀ e ∈ (applyTrade s t).openOrders, e.2.1 = 1 ∨ e.2.1 = -1) ∧
    (∃ k : ℤ, (applyTrade s t).position = (k : ℚ)) ∧
    (∀ x ∈ (applyTrade s t).openOrders.map fun e => e.1,
       x ∈ s.openOrders.map (fun e => e.1) ∨ x = t.time) := by
  obtain ⟨k, hk⟩ := hint
  by_cases hb : lowerStr t.type = "buy"
  · have hO : (applyTrade s t).openOrders
        = s.openOrders ++ [(t.time, t.lots, t.price)] := by
      simp [applyTrade, hb, setKey_not_mem _ _ _ _ hfresh]
    have hP : (applyTrade s t).position = round2 (s.position + t.lots) := by
      simp [applyTrade, hb]
    have hround : round2 (s.position + t.lots) = s.position + 1 := by
      rw [ht1, hk, show (k : ℚ) + 1 = ((k + 1 : ℤ) : ℚ) from by push_cast; ring,
          round2_intCast]
    refine ⟨?_, ?_, ?_, ?_⟩
    · rw [hP, hO, hround, hpos]
      simp [sumLots, ht1]
    · intro e he
      rw [hO] at he
      rcases List.mem_append.mp he with h' | h'
      · exact hunit e h'
      · rw [List.mem_singleton.mp h', ht1]
        exact Or.inl rfl
    · rw [hP, hround, hk]
      exact ⟨k + 1, by push_cast; ring⟩
    · intro x hx
      rw [hO] at hx
      simp only [List.map_append, List.mem_append, List.map_cons, List.map_nil,
        List.mem_singleton, List.mem_cons, List.not_mem_nil, or_false] at hx
      rcases hx with h' | h'
      · exact Or.inl h'
      · exact Or.inr h'
  · by_cases hsell : lowerStr t.type = "sell"
    · have hO : (applyTrade s t).openOrders
          = s.openOrders ++ [(t.time, -t.lots, t.price)] := by
        simp [applyTrade, hb, hsell, setKey_not_mem _ _ _ _ hfresh]
      have hP : (applyTrade s t).position = round2 (s.position - t.lots) := by
        simp [applyTrade, hb, hsell]
      have hround : round2 (s.position - t.lots) = s.position - 1 := by
        rw [ht1, hk, show (k : ℚ) - 1 = ((k - 1 : ℤ) : ℚ) from by push_cast; ring,
            round2_intCast]
      refine ⟨?_, ?_, ?_, ?_⟩
      · rw [hP, hO, hround, hpos]
        simp [sumLots, ht1]
        ring
      · intro e he
        rw [hO] at he
        rcases List.mem_append.mp he with h' | h'
        · exact hunit e h'
        · rw [List.mem_singleton.mp h', ht1]
          exact Or.inr rfl
      · rw [hP, hround, hk]
        exact ⟨k - 1, by push_cast; ring⟩
      · intro x hx
        rw [hO] at hx
        simp only [List.map_append, List.mem_append, List.map_cons, List.map_nil,
          List.mem_singleton, List.mem_cons, List.not_mem_nil, or_false] at hx
        rcases hx with h' | h'
        · exact Or.inl h'
        · exact Or.inr h'
    · by_cases hc : lowerStr t.type = "t/p" ∨ lowerStr t.type = "s/l"
      · cases hm : s.openOrders with
        | nil =>
            have hs' : applyTrade s t = s := by simp [applyTrade, hb, hsell, hc, hm]
            rw [hs']
            refine ⟨hpos, hunit, ⟨k, hk⟩, fun x hx => ?_⟩
            rw [hm] at hx
            exact Or.inl hx
        | cons e rest0 =>
            obtain ⟨kh, lh, ph⟩ := e
            by_cases hkh : kh = ""
            · have hs' : applyTrade s t = s := by
                simp [applyTrade, hb, hsell, hc, hm, hkh]
              rw [hs']
              refine ⟨hpos, hunit, ⟨k, hk⟩, fun x hx => ?_⟩
              rw [hm] at hx
              exact Or.inl hx
            · have hO : (applyTrade s t).openOrders = rest0 := by
                simp [applyTrade, hb, hsell, hc, hm, hkh]
              have hP : (applyTrade s t).position =
                  round2 (s.position - (if 0 < lh then 1 else -1) * t.lots) := by
                simp [applyTrade, hb, hsell, hc, hm, hkh]
              have hlh : lh = 1 ∨ lh = -1 := by
                have := hunit (kh, lh, ph) (by rw [hm]; exact List.mem_cons_self _ _)
                simpa using this
              have hdir : (if (0:ℚ) < lh then (1:ℚ) else -1) = lh := by
                rcases hlh with h' | h' <;> rw [h'] <;> norm_num
              have hsum : sumLots s.openOrders = lh + sumLots rest0 := by
                rw [hm]
                simp [sumLots]
              have hround : round2 (s.position - (if 0 < lh then 1 else -1) * t.lots)
                  = s.position - lh := by
                rw [ht1, hdir, mul_one, hk]
                rcases hlh with h' | h' <;> rw [h']
                · rw [show (k : ℚ) - 1 = ((k - 1 : ℤ) : ℚ) from by push_cast; ring,
                      round2_intCast]
                · rw [show (k : ℚ) - (-1) = ((k + 1 : ℤ) : ℚ) from by push_cast; ring,
                      round2_intCast]
              refine ⟨?_, ?_, ?_, ?_⟩
              · rw [hP, hO, hround, hpos, hsum]
                ring
              · intro e he
                rw [hO] at he
                exact hunit e (by rw [hm]; exact List.mem_cons_of_mem _ he)
              · rw [hP, hround, hk]
                rcases hlh with h' | h' <;> rw [h']
                · exact ⟨k - 1, by push_cast; ring⟩
                · exact ⟨k + 1, by push_cast; ring⟩
              · intro x hx
                rw [hO] at hx
                refine Or.inl ?_
                simp only [List.map_cons, List.mem_cons]
                exact Or.inr hx
      · have hs' : applyTrade s t = s := by simp [applyTrade, hb, hsell, hc]
        rw [hs']
        exact ⟨hpos, hunit, ⟨k, hk⟩, fun x hx => Or.inl hx⟩

theorem applyTrades_netPos_inv (l : List Trade) :
    ∀ (s : PState),
    (∀ t ∈ l, t.lots = 1) →
    ((l.map fun t => t.time).Nodup) →
    (∀ t ∈ l, t.time ∉ s.openOrders.map fun e => e.1) →
    s.position = sumLots s.openOrders →
    (∀ e ∈ s.openOrders, e.2.1 = 1 ∨ e.2.1 = -1) →
    (∃ k : ℤ, s.position = (k : ℚ)) →
    (applyTrades l s).position = sumLots (applyTrades l s).openOrders := by
  induction l with
  | nil => intro s _ _ _ hpos _ _; exact hpos
  | cons t rest ih =>
      intro s hlots hnodup hfresh hpos hunit hint
      rw [applyTrades_cons]
      obtain ⟨hpos', hunit', hint', hkeys'⟩ :=
        applyTrade_inv_step s t (hlots t (List.mem_cons_self t rest))
          (hfresh t (List.mem_cons_self t rest)) hpos hunit hint
      simp only [List.map_cons, List.nodup_cons] at hnodup
      obtain ⟨hhead, htail⟩ := hnodup
      apply ih _
        (fun x hx => hlots x (List.mem_cons_of_mem _ hx)) htail
        ?_ hpos' hunit' hint'
      intro x hx hmem
      rcases hkeys' _ hmem with hold | heq
      · exact hfresh x (List.mem_cons_of_mem _ hx) hold
      · exact hhead (heq ▸ List.mem_map_of_mem _ hx)

/-- C2 (amended): when every ledger trade has lot size 1 (as this app's
parser always produces, `open: '1'`) and the trades' time keys are pairwise
distinct, the net position after any ledger prefix equals — exactly, no
tolerance needed — the sum of the signed lots of the open-lot map, so every
open/close step preserves the invariant. For general lot sizes the code
violates the invariant (see the counterexample). -/
theorem netPosition_eq_sum_openLots (trades : List Trade)
    (hlots : ∀ t ∈ trades, t.lots = 1)
    (hkeys : (trades.map fun t => t.time).Nodup) :
    (applyTrades trades pState0).position =
      sumLots (applyTrades trades pState0).openOrders :=
  applyTrades_netPos_inv trades pState0 hlots hkeys
    (by simp [pState0]) (by simp [pState0, sumLots]) (by simp [pState0])
    ⟨0, by simp [pState0]⟩

/-- C2 witness: the amended invariant on a concrete open-then-close ledger. -/
theorem netPosition_eq_sum_openLots_witness :
    (applyTrades [tOpen1, tClose1] pState0).position =
      sumLots (applyTrades [tOpen1, tClose1] pState0).openOrders :=
  netPosition_eq_sum_openLots [tOpen1, tClose1]
    (by intro t ht
        rcases List.mem_cons.mp ht with h' | h'
        · rw [h']; rfl
        · rw [List.mem_singleton.mp h']; rfl)
    (by decide)

/-- C2 counterexample: after `BUY 1 lot` then `T/P 0.5 lots`, the code leaves
`position = 0.5` while the open-lot map is empty (summed signed lots `0`) —
the claimed invariant `netPosition == sum(openLots.signedLots)` fails by
`0.5`, far beyond any floating-point tolerance (in particular beyond the
code's own `0.001` band). -/
theorem netPosition_invariant_cex :
    (applyTrades [tOpen1, cexClose] pState0).position = 1/2 ∧
    sumLots (applyTrades [tOpen1, cexClose] pState0).openOrders = 0 ∧
    ¬ |(applyTrades [tOpen1, cexClose] pState0).position -
        sumLots (applyTrades [tOpen1, cexClose] pState0).openOrders| < 1/1000 := by
  have h1 : applyTrade pState0 tOpen1 = cexMid := by
    norm_num [applyTrade, pState0, tOpen1, cexMid, setKey, round2,
      show lowerStr "BUY" = "buy" from by decide]
  have h2 : applyTrade cexMid cexClose =
      { openOrders := [], position := 1/2, closedProfit := 0 } := by
    norm_num [applyTrade, cexClose, cexMid, round2,
      show lowerStr "T/P" = "t/p" from by decide,
      show ("t/p" : String) ≠ "buy" from by decide,
      show ("t/p" : String) ≠ "sell" from by decide,
      show ("o1" : String) ≠ "" from by decide]
  have hall : applyTrades [tOpen1, cexClose] pState0 =
      { openOrders := [], position := 1/2, closedProfit := 0 } := by
    rw [applyTrades_cons, h1, applyTrades_cons, h2]
    rfl
  rw [hall]
  norm_num [sumLots]
  rw [abs_of_pos]
  · norm_num
  · norm_num
